import Mathlib

/-!
Verification of the replay-memory / DQN training core of the
`deep-reinforcement-learning` repository, as a shallow embedding in Lean.

Python floats are modelled as exact rationals (`ℚ`) except where the code
raises values to a real exponent (`np.power` with exponents `alpha`, `beta`
in `PrioritizedBuffer.sample`), where reals (`ℝ`) with `Real.rpow` are used.
`np.NINF` is modelled as `⊥ : WithBot ℚ`.  Python dictionaries with string
keys are modelled as association lists, with `KeyError` made explicit
through `Except`.
-/

namespace DRL

/-! ### Generic fold-max helpers (used to model `np.max` / `tf.reduce_max` / `np.argmax`) -/

/-- Fold of `max` over a list, seeded with an initial value. -/
def foldMax {α : Type} [LinearOrder α] (x : α) (xs : List α) : α :=
  xs.foldl max x

/-! ### PrioritizedBuffer beta annealing (prioritizedbuffer.py, lines 27-33 and 101)

The constructor receives `beta` as a triple `(beta_start, beta_end, steps)`,
stores `_beta := beta_start`, `_beta_max := beta_end` and
`_beta_inc := (beta_end - beta_start) / steps`.  Each `sample` call ends with
`self._beta = min(self._beta + self._beta_inc, self._beta_max)`. -/

/-- The `_beta_inc` increment as computed by `PrioritizedBuffer.__init__` from the
`(beta_start, beta_end, steps)` triple. -/
def betaInc (betaStart betaMax steps : ℚ) : ℚ :=
  (betaMax - betaStart) / steps

/-- The `beta` update performed at the end of every `PrioritizedBuffer.sample`
call: `self._beta = min(self._beta + self._beta_inc, self._beta_max)`. -/
def betaStep (beta inc betaMax : ℚ) : ℚ :=
  min (beta + inc) betaMax

/-! ### DQNAgent._update_target (dqn_agent.py, lines 102-106)

For each pair `(sv, tv)` of corresponding online/target variables the agent
executes `tv.assign((1 - self._tau) * tv + self._tau * sv)`. -/

/-- Parameter vectors are modelled as lists of scalars; `_update_target`
maps `(sv, tv) ↦ (1 - tau) * tv + tau * sv` over the zipped pair. -/
def updateTarget (tau : ℚ) (online target : List ℚ) : List ℚ :=
  List.zipWith (fun sv tv => (1 - tau) * tv + tau * sv) online target

/-! ### DQNAgent._loss target construction (dqn_agent.py, lines 70-83)

The loss routine computes `current_q_values` (online net on states),
`next_target_q_values` (target net on next states) and
`next_online_q_values` (online net on next states, line 75); it then builds
`adjusted_rewards = reward_batch + gamma * reduce_max(next_target_q_values,
axis=1)` under `stop_gradient` and
`target_values = tf.where(done_batch, reward_batch, adjusted_rewards)`. -/

/-- Model of `tf.math.reduce_max` over one row of Q-values (the action axis); rows are
nonempty since the action space has at least one action. -/
def reduceMax : List ℚ → ℚ
  | [] => 0
  | x :: xs => foldMax x xs

/-- Elementwise `tf.where` over three aligned batch tensors. -/
def zip3With {α β γ δ : Type} (f : α → β → γ → δ) : List α → List β → List γ → List δ
  | a :: as, b :: bs, c :: cs => f a b c :: zip3With f as bs cs
  | _, _, _ => []

/-- Line 77: `adjusted_rewards = reward_batch + gamma *
reduce_max(next_target_q_values, axis=1)`. -/
def adjustedRewards (gamma : ℚ) (rewards : List ℚ) (nextTargetQ : List (List ℚ)) : List ℚ :=
  List.zipWith (fun r row => r + gamma * reduceMax row) rewards nextTargetQ

/-- Line 78: `target_values = tf.where(done_batch, reward_batch,
adjusted_rewards)`. -/
def targetValues (gamma : ℚ) (rewards : List ℚ) (dones : List Bool)
    (nextTargetQ : List (List ℚ)) : List ℚ :=
  zip3With (fun d r a => if d then r else a) dones rewards
    (adjustedRewards gamma rewards nextTargetQ)

/-- The target construction of `_loss` with the computed-but-unused
`next_online_q_values` (line 75) made an explicit argument: the body never
consults it, exactly as in the source. -/
def dqnLossTargets (gamma : ℚ) (rewards : List ℚ) (dones : List Bool)
    (nextTargetQ : List (List ℚ)) (nextOnlineQ : List (List ℚ)) : List ℚ :=
  targetValues gamma rewards dones nextTargetQ

/-! ### QPolicy._act (qpolicy.py, lines 12-17)

`_act` queries the Q-network, and when a mask is given replaces masked-out
entries by `np.NINF` via `tf.where(mask, qvals, np.NINF)` before
`np.argmax`.  `np.NINF` is modelled as `⊥ : WithBot ℚ`; `np.argmax` returns
the first index attaining the maximum. -/

/-- Maximum of a list of extended rationals (`⊥` on the empty list). -/
def wmax : List (WithBot ℚ) → WithBot ℚ
  | [] => ⊥
  | x :: xs => foldMax x xs

/-- Model of `np.argmax`: the first index attaining the maximum of the (flattened)
array. -/
def npArgmax (l : List (WithBot ℚ)) : ℕ :=
  l.indexOf (wmax l)

/-- Model of `QPolicy._act` on one observation: the row of Q-values is masked with
`tf.where(mask, qvals, np.NINF)` when a mask is present, then `np.argmax`
picks the action. -/
def qpolicyAct (qvals : List ℚ) (mask : Option (List Bool)) : ℕ :=
  let masked : List (WithBot ℚ) :=
    match mask with
    | none => qvals.map (fun (q : ℚ) => (q : WithBot ℚ))
    | some m => List.zipWith (fun (b : Bool) (q : ℚ) => if b then (q : WithBot ℚ) else ⊥) m qvals
  npArgmax masked

/-! ### Non-finite loss handling (vpg.py line 157 vs dqn_agent.py lines 85-100)

`VPG._train` guards the loss with
`assert not tf.math.is_inf(loss) and not tf.math.is_nan(loss)` before the
backward pass; `DQNAgent._train` contains no finiteness check at all and
applies the gradients unconditionally.  A loss scalar is modelled by its two
finiteness flags, mirroring `tf.math.is_inf` / `tf.math.is_nan`. -/

/-- Finiteness flags of a computed loss scalar. -/
structure LossVal where
  isInf : Bool
  isNan : Bool

/-- Model of `VPG._train` around line 157: the assertion aborts (AssertionError)
before `tape.gradient`/`apply_gradients` run; on a finite loss the update is
applied (modelled as incrementing the applied-updates count). -/
def vpgTrainStep (applied : ℕ) (loss : LossVal) : Except String ℕ :=
  if loss.isInf || loss.isNan then Except.error "AssertionError"
  else Except.ok (applied + 1)

/-- Observable counters of `DQNAgent._train` (lines 85-100): number of
applied gradient updates and the `_train_step` counter. -/
structure DQNTrainState where
  updatesApplied : ℕ
  trainStep : ℕ

/-- Model of `DQNAgent._train`: computes the loss, applies gradients (line 93) and
increments `_train_step` (line 94) unconditionally; the body contains no
finiteness check on `loss`, so the loss value never influences whether the
update is applied. -/
def dqnTrainStep (s : DQNTrainState) (loss : LossVal) : DQNTrainState :=
  { updatesApplied := s.updatesApplied + 1, trainStep := s.trainStep + 1 }

/-! ### PrioritizedBuffer.update_samples (prioritizedbuffer.py, lines 104-107)

`update_samples(errors, indexes)` asserts
`len(errors.shape) == 1 and errors.shape[0] == len(indexes)` and then runs
`self._sum_tree.set(mem_idx, errors[error_idx].numpy())` for each pair.  The
stored priority is the raw error value — no absolute value is taken.
`errors` is modelled as a list of rationals (inherently one-dimensional, so
the 1-D half of the assertion always holds in the model). -/

/-- Modelled from the spec: `SumTree.set(slot, priority)` with an explicit
priority stores that value at the leaf (sum_tree.py is absent from the
sources; spec section 4.1 describes `set`). Leaves are a map slot → priority,
`none` for never-assigned leaves. -/
def sumTreeSetVal (prios : ℕ → Option ℚ) (slot : ℕ) (p : ℚ) : ℕ → Option ℚ :=
  fun i => if i = slot then some p else prios i

/-- The loop body of `update_samples`: sequential `set` calls over the
`(mem_idx, error)` pairs. -/
def setAll (prios : ℕ → Option ℚ) (pairs : List (ℕ × ℚ)) : ℕ → Option ℚ :=
  pairs.foldl (fun t p => sumTreeSetVal t p.1 p.2) prios

/-- Model of `PrioritizedBuffer.update_samples` (lines 104-107). -/
def update_samples (prios : ℕ → Option ℚ) (errors : List ℚ) (indexes : List ℕ) :
    Except String (ℕ → Option ℚ) :=
  if errors.length = indexes.length then
    Except.ok (setAll prios (indexes.zip errors))
  else Except.error "AssertionError"

/-! ### PrioritizedBuffer.commit_stmemory (prioritizedbuffer.py, lines 48-79)

Line 57 builds the staged dictionary with keys state, actions, reward,
next_state and dones.  The aggregation branch (lines 58-71) reads the keys
states, rewards and next_states from previously staged dictionaries of the
same shape.  Dictionary access is
modelled with explicit `KeyError` via `Except`. -/

/-- A Python value stored in a staged-experience dict or a committed
transition: a scalar, a numeric array, or a boolean array. -/
inductive PyObj : Type
  | num (q : ℚ)
  | arr (xs : List ℚ)
  | barr (xs : List Bool)
deriving DecidableEq

/-- A Python dict with string keys, as built on line 57. -/
def StDict : Type := List (String × PyObj)

/-- Line 57: the staged dict, mapping the keys state, actions, reward,
next_state and dones to the arrays of the incoming fragment. -/
def mkStExperience (states actions rewards nextStates : List ℚ)
    (dones : List Bool) : StDict :=
  [("state", PyObj.arr states), ("actions", PyObj.arr actions),
   ("reward", PyObj.arr rewards), ("next_state", PyObj.arr nextStates),
   ("dones", PyObj.barr dones)]

/-- Python `d[key]`: raises `KeyError` when the key is absent. -/
def dictGet (d : StDict) (k : String) : Except String PyObj :=
  match List.lookup k d with
  | some v => Except.ok v
  | none => Except.error ("KeyError: " ++ k)

/-- View a Python value as a numeric array (`TypeError` otherwise). -/
def asArr : PyObj → Except String (List ℚ)
  | PyObj.arr xs => Except.ok xs
  | _ => Except.error "TypeError"

/-- View a Python value as a boolean array (`TypeError` otherwise). -/
def asBarr : PyObj → Except String (List Bool)
  | PyObj.barr xs => Except.ok xs
  | _ => Except.error "TypeError"

/-- Python `xs[b]` on a sequence: `IndexError` when out of range. -/
def pyIndex {α : Type} (xs : List α) (b : ℕ) : Except String α :=
  match xs.get? b with
  | some v => Except.ok v
  | none => Except.error "IndexError"

/-- A transition as committed to the long-term store (the dict literal of
lines 69 and 74-78); `nextState` holds whatever object the source assigns
(line 67 assigns the whole `next_states` array unindexed, line 77 a
scalar). -/
structure LtExp : Type where
  state : ℚ
  action : ℚ
  reward : ℚ
  nextState : PyObj
  done : Bool
deriving DecidableEq

/-- Lines 62-66: the inner loop adds `gamma ^ k` times entry `b` of the
rewards key of each staged dict to `r_tpn`, with an early break at the
first terminal flag; it returns the accumulated return together with the
last dictionary the loop variable `e_k` held. -/
def nstepLoop (gamma : ℚ) (b : ℕ) : ℕ → List StDict → Except String (ℚ × StDict)
  | _, [] => Except.error "NameError"
  | k, e :: rest => do
      let rsv ← dictGet e "rewards"
      let rs ← asArr rsv
      let rb ← pyIndex rs b
      let dsv ← dictGet e "dones"
      let ds ← asBarr dsv
      let db ← pyIndex ds b
      if db then
        Except.ok (gamma ^ k * rb, e)
      else
        match rest with
        | [] => Except.ok (gamma ^ k * rb, e)
        | e2 :: rest2 => do
            let pr ← nstepLoop gamma b (k + 1) (e2 :: rest2)
            Except.ok (gamma ^ k * rb + pr.1, pr.2)

/-- Lines 60-70: the aggregation body for one batch element `b`. -/
def nstepAggregateOne (stm : List StDict) (gamma : ℚ) (b : ℕ) :
    Except String LtExp := do
  let e0 ← pyIndex stm 0
  let stsv ← dictGet e0 "states"
  let sts ← asArr stsv
  let s_t ← pyIndex sts b
  let actv ← dictGet e0 "actions"
  let acts ← asArr actv
  let a_t ← pyIndex acts b
  let rl ← nstepLoop gamma b 0 stm
  let nsv ← dictGet rl.2 "next_states"
  let dsv ← dictGet rl.2 "dones"
  let ds ← asBarr dsv
  let done_tpn ← pyIndex ds b
  Except.ok ⟨s_t, a_t, rl.1, nsv, done_tpn⟩

/-- Model of `deque(maxlen=n).append`: evicts from the left on overflow. -/
def dequeAppend (maxlen : ℕ) (q : List StDict) (x : StDict) : List StDict :=
  let q2 := q ++ [x]
  q2.drop (q2.length - maxlen)

/-- Model of `PrioritizedBuffer.commit_stmemory` (lines 48-79) on one fragment.
`n1` is `self._n = n_step_return - 1`; `stm` the current short-term queue.
Returns the list of transitions passed to `commit_ltmemory`, in order,
together with the new queue contents. -/
def commit_stmemory (n1 : ℕ) (stm : List StDict)
    (states actions rewards nextStates : List ℚ) (dones : List Bool)
    (gamma : ℚ) : Except String (List LtExp × List StDict) :=
  let batchSize := states.length
  let stExp := mkStExperience states actions rewards nextStates dones
  if 1 < n1 ∧ n1 = stm.length then do
    let committed ← (List.range batchSize).mapM (fun b => nstepAggregateOne stm gamma b)
    Except.ok (committed, dequeAppend n1 stm stExp)
  else do
    let committed ← (List.range batchSize).mapM (fun b => do
      let s ← pyIndex states b
      let a ← pyIndex actions b
      let r ← pyIndex rewards b
      let ns ← pyIndex nextStates b
      let d ← pyIndex dones b
      Except.ok (⟨s, a, r, PyObj.num ns, d⟩ : LtExp))
    Except.ok (committed, stm)

/-! ### PrioritizedBuffer.commit_ltmemory (prioritizedbuffer.py, lines 81-84)

`commit_ltmemory` writes the experience at the cursor
(`self._ltmemory[self._ptr] = experience`), calls `self._sum_tree.set(self._ptr)`
(no explicit priority: mark as new experience) and advances the cursor
modulo the capacity.  The state carries ghost write-timestamps (`stamp`,
`time`) to express which slot is oldest. -/

/-- Modelled from the spec: the SumTree leaf assignments (sum_tree.py is
absent from the sources; spec section 4.1). `none` marks a never-assigned
leaf. -/
structure SumTreeM : Type where
  capacity : ℕ
  prios : ℕ → Option ℚ

/-- Modelled from the spec: the default priority used by `set(slot)` when no
priority is given — the current maximum priority across all leaves, or 1 if
the tree is empty. -/
def stDefault (t : SumTreeM) : ℚ :=
  match (List.range t.capacity).filterMap t.prios with
  | [] => 1
  | x :: xs => foldMax x xs

/-- Modelled from the spec: `SumTree.set(slot)` without an explicit
priority assigns the default priority to the leaf. -/
def sumTreeSetNew (t : SumTreeM) (slot : ℕ) : SumTreeM :=
  { t with prios := sumTreeSetVal t.prios slot (stDefault t) }

/-- The `PrioritizedBuffer` long-term state: capacity (`self._size`), write
cursor (`self._ptr`), slot contents (`self._ltmemory`), priority tree, plus
ghost per-slot write timestamps and a ghost commit counter. -/
structure PBState : Type where
  size : ℕ
  ptr : ℕ
  ltmem : ℕ → Option LtExp
  tree : SumTreeM
  stamp : ℕ → ℕ
  time : ℕ

/-- Model of `commit_ltmemory` (lines 81-84). -/
def commit_ltmemory (s : PBState) (e : LtExp) : PBState :=
  { size := s.size,
    ptr := (s.ptr + 1) % s.size,
    ltmem := fun i => if i = s.ptr then some e else s.ltmem i,
    tree := sumTreeSetNew s.tree s.ptr,
    stamp := fun i => if i = s.ptr then s.time else s.stamp i,
    time := s.time + 1 }

/-- The ring-buffer invariant: positive capacity, in-range cursor, all live
slots in range, ghost stamps bounded by the commit counter and cyclically
non-decreasing starting at the cursor. -/
def RingInv (s : PBState) : Prop :=
  0 < s.size ∧ s.ptr < s.size ∧
  (∀ i, (s.ltmem i).isSome → i < s.size) ∧
  (∀ i, s.stamp i ≤ s.time) ∧
  (∀ k, k + 1 < s.size →
     s.stamp ((s.ptr + k) % s.size) ≤ s.stamp ((s.ptr + k + 1) % s.size))

/-- Number of live (occupied) slots. -/
def liveCount (s : PBState) : ℕ :=
  ((List.range s.size).filter (fun i => (s.ltmem i).isSome)).length

/-- Every slot holds a transition. -/
def full (s : PBState) : Prop :=
  ∀ i, i < s.size → (s.ltmem i).isSome

/-- Slot `j` was written no later than any other slot. -/
def isOldest (s : PBState) (j : ℕ) : Prop :=
  ∀ i, i < s.size → s.stamp j ≤ s.stamp i

/-- An empty one-slot buffer, used as a concrete invariant-satisfying state. -/
def pbWitnessState : PBState :=
  ⟨1, 0, fun _ => none, ⟨1, fun _ => none⟩, fun _ => 0, 0⟩

/-! ### PrioritizedBuffer.sample, stratified segment draws
(prioritizedbuffer.py, lines 90-91)

`bounds = np.linspace(0., 1., batch_size + 1)` and
`indexes = [self._sum_tree.sample(lb=bounds[i], ub=bounds[i + 1]) for i in
range(batch_size)]`.  `SumTree.sample` is modelled from the spec
(sum_tree.py is absent from the sources): it draws a target uniformly in
`[lb * total, ub * total)` and descends from the root, taking the left
child when the target falls within its mass and otherwise subtracting the
left mass and descending right; at the leaves this selects the first slot
whose cumulative priority range contains the target.  The drawn target is
an explicit parameter of the model. -/

/-- Modelled from the spec: the `SumTree.sample` descent, expressed at the
leaves — the first slot whose cumulative priority interval contains the
target `t`. -/
def treeSelect : List ℚ → ℚ → ℕ
  | [], _ => 0
  | p :: ps, t => if t < p then 0 else 1 + treeSelect ps (t - p)

/-- Model of `np.linspace(0., 1., n + 1)`. -/
def linspace01 (n : ℕ) : List ℚ :=
  (List.range (n + 1)).map (fun (i : ℕ) => (i : ℚ) / n)

/-- Lines 90-91 with the per-segment random draws made explicit: slot `i`
of the batch is the descent result for the value drawn in segment `i`. -/
def stratifiedIndexes (ps : List ℚ) (draws : List ℚ) : List ℕ :=
  draws.map (treeSelect ps)

/-- The `i`-th draw lies in `[bounds[i] * total, bounds[i+1] * total)`, the
segment `SumTree.sample(lb=bounds[i], ub=bounds[i+1])` draws from. -/
def validDraws (total : ℚ) (n : ℕ) (draws : List ℚ) : Prop :=
  draws.length = n ∧ ∀ (i : ℕ) (h : i < draws.length),
    (i : ℚ) / n * total ≤ draws.get ⟨i, h⟩ ∧
    draws.get ⟨i, h⟩ < ((i : ℚ) + 1) / n * total

/-! ### PrioritizedBuffer.sample, importance weights
(prioritizedbuffer.py, lines 92-100)

```
priorities = np.array([self._sum_tree.get(idx) for idx in indexes]) + self._eps
if self._beta != 0:
    priorities_pow = np.power(priorities, self._alpha)
    probs = priorities_pow / priorities_pow.sum()
    is_weights = np.power(1/(len(self._sum_tree) * probs), self._beta)
    is_weights = is_weights / np.max(is_weights)
else:
    is_weights = np.ones_like(indexes)
```

Reals with `Real.rpow` model `np.power` with fractional exponents.  The
normalization sum in the code ranges over the sampled batch only; the spec
formula sums over all stored slots — the two agree after dividing by the
batch maximum, which is what the theorem below establishes. -/

/-- Model of `np.max` of a nonempty array (junk value `0` on the empty array, on
which numpy raises instead). -/
noncomputable def npMax : List ℝ → ℝ
  | [] => 0
  | x :: xs => foldMax x xs

/-- Line 98: `is_weights = is_weights / np.max(is_weights)`. -/
noncomputable def normalizeMax (l : List ℝ) : List ℝ :=
  l.map (fun x => x / npMax l)

/-- Line 92: `priorities = np.array([...get(idx)...]) + self._eps`. -/
def prioritiesOf (rawPs : List ℝ) (eps : ℝ) : List ℝ :=
  rawPs.map (fun (p : ℝ) => p + eps)

/-- Line 95: `priorities_pow = np.power(priorities, self._alpha)`. -/
noncomputable def prioritiesPowOf (rawPs : List ℝ) (eps α : ℝ) : List ℝ :=
  (prioritiesOf rawPs eps).map (fun (p : ℝ) => p ^ α)

/-- Line 96: `probs = priorities_pow / priorities_pow.sum()`. -/
noncomputable def probsOf (rawPs : List ℝ) (eps α : ℝ) : List ℝ :=
  (prioritiesPowOf rawPs eps α).map (fun (q : ℝ) => q / (prioritiesPowOf rawPs eps α).sum)

open Classical in
/-- Lines 92-100 as a function of the batch's raw priorities (the
`sum_tree.get` values for the sampled indexes), `N = len(self._sum_tree)`,
and the `eps`, `alpha`, `beta` parameters. -/
noncomputable def isWeightsCode (rawPs : List ℝ) (N : ℕ) (eps α β : ℝ) : List ℝ :=
  if β ≠ 0 then
    normalizeMax ((probsOf rawPs eps α).map (fun (pr : ℝ) => (1 / ((N : ℝ) * pr)) ^ β))
  else (prioritiesOf rawPs eps).map (fun (_ : ℝ) => (1 : ℝ))

/-- The spec's description of the same weights: `P_i = (p_i + eps)^alpha /
Σ_j (p_j + eps)^alpha` with the sum over all stored slots (`allPs`),
`w_i = (N * P_i)^(-beta)`, then division by the batch maximum. -/
noncomputable def isWeightsSpec (rawPs allPs : List ℝ) (N : ℕ) (eps α β : ℝ) : List ℝ :=
  let T := (allPs.map (fun (p : ℝ) => (p + eps) ^ α)).sum
  normalizeMax (rawPs.map (fun (p : ℝ) => ((N : ℝ) * ((p + eps) ^ α / T)) ^ (-β)))

/-! ### Theorems -/

theorem foldMax_nil {α : Type} [LinearOrder α] (x : α) : foldMax x ([] : List α) = x := rfl

theorem foldMax_cons {α : Type} [LinearOrder α] (x y : α) (ys : List α) :
    foldMax x (y :: ys) = foldMax (max x y) ys := rfl

theorem foldMax_mono {α : Type} [LinearOrder α] (xs : List α) :
    ∀ {a b : α}, a ≤ b → foldMax a xs ≤ foldMax b xs := by
  induction xs with
  | nil => intro a b h; simpa [foldMax] using h
  | cons y ys ih =>
      intro a b h
      rw [foldMax_cons, foldMax_cons]
      exact ih (max_le_max h le_rfl)

theorem le_foldMax_seed {α : Type} [LinearOrder α] (x : α) (xs : List α) :
    x ≤ foldMax x xs := by
  induction xs generalizing x with
  | nil => exact le_rfl
  | cons y ys ih =>
      rw [foldMax_cons]
      exact le_trans (le_max_left x y) (ih (max x y))

theorem le_foldMax_of_mem {α : Type} [LinearOrder α] {y : α} {xs : List α}
    (hy : y ∈ xs) (x : α) : y ≤ foldMax x xs := by
  induction xs generalizing x with
  | nil => cases hy
  | cons z zs ih =>
      rw [foldMax_cons]
      rcases List.mem_cons.mp hy with h | h
      · subst h
        exact le_trans (le_max_right x y) (le_foldMax_seed _ _)
      · exact ih h (max x z)

theorem foldMax_mem {α : Type} [LinearOrder α] (x : α) (xs : List α) :
    foldMax x xs = x ∨ foldMax x xs ∈ xs := by
  induction xs generalizing x with
  | nil => exact Or.inl rfl
  | cons y ys ih =>
      rw [foldMax_cons]
      rcases ih (max x y) with h | h
      · rcases max_cases x y with ⟨hm, _⟩ | ⟨hm, _⟩
        · exact Or.inl (h.trans hm)
        · exact Or.inr (by rw [h, hm]; exact List.mem_cons_self _ _)
      · exact Or.inr (List.mem_cons_of_mem _ h)

theorem updateTarget_get (tau : ℚ) (online target : List ℚ) :
    ∀ (i : ℕ) (h1 : i < online.length) (h2 : i < target.length)
      (h3 : i < (updateTarget tau online target).length),
      (updateTarget tau online target).get ⟨i, h3⟩
        = (1 - tau) * target.get ⟨i, h2⟩ + tau * online.get ⟨i, h1⟩ := by
  induction online generalizing target with
  | nil => intro i h1; cases h1
  | cons sv svs ih =>
      intro i h1 h2 h3
      cases target with
      | nil => cases h2
      | cons tv tvs =>
          cases i with
          | zero => rfl
          | succ j =>
              exact ih tvs j (Nat.lt_of_succ_lt_succ h1) (Nat.lt_of_succ_lt_succ h2)
                (Nat.lt_of_succ_lt_succ h3)

theorem updateTarget_one (online : List ℚ) :
    ∀ target : List ℚ, online.length = target.length →
      updateTarget 1 online target = online := by
  induction online with
  | nil => intro target _; rfl
  | cons sv svs ih =>
      intro target hlen
      cases target with
      | nil => simp at hlen
      | cons tv tvs =>
          have h2 : svs.length = tvs.length := by simpa using hlen
          have hhd : (1 - 1 : ℚ) * tv + 1 * sv = sv := by ring
          simp only [updateTarget, List.zipWith_cons_cons, hhd]
          have htl := ih tvs h2
          simp only [updateTarget] at htl
          rw [htl]

/-- C8: one `_update_target` call sets every target parameter to
`(1 - tau) * target + tau * online` over corresponding (zipped) pairs, and
with `tau = 1` the resulting target parameters are exactly the online
parameters. -/
theorem dqn_update_target_correct (tau : ℚ) (online target : List ℚ)
    (hlen : online.length = target.length) :
    (∀ (i : ℕ) (h1 : i < online.length) (h2 : i < target.length)
       (h3 : i < (updateTarget tau online target).length),
       (updateTarget tau online target).get ⟨i, h3⟩
         = (1 - tau) * target.get ⟨i, h2⟩ + tau * online.get ⟨i, h1⟩) ∧
    updateTarget 1 online target = online :=
  ⟨updateTarget_get tau online target, updateTarget_one online target hlen⟩

/-- Witness for C8: a hard copy with `tau = 1` on concrete parameter lists. -/
theorem dqn_update_target_correct_witness :
    updateTarget 1 [2, 3] [4, 5] = [2, 3] :=
  (dqn_update_target_correct 1 [2, 3] [4, 5] rfl).2

/-- C7: with `0 < steps` and `beta_start ≤ beta_end`, the annealed `beta`
starts at `beta_start`; each `sample()` update keeps it inside
`[beta_start, beta_end]`, moves it monotonically upward by at most the fixed
increment `(beta_end - beta_start) / steps`, and once `beta = beta_end` the
update leaves it unchanged. -/
theorem beta_anneal_invariant (betaStart betaMax steps beta : ℚ)
    (hsteps : 0 < steps) (hle : betaStart ≤ betaMax)
    (hlo : betaStart ≤ beta) (hhi : beta ≤ betaMax) :
    betaStart ≤ betaStep beta (betaInc betaStart betaMax steps) betaMax ∧
    betaStep beta (betaInc betaStart betaMax steps) betaMax ≤ betaMax ∧
    beta ≤ betaStep beta (betaInc betaStart betaMax steps) betaMax ∧
    betaStep beta (betaInc betaStart betaMax steps) betaMax - beta
      ≤ betaInc betaStart betaMax steps ∧
    betaStep betaMax (betaInc betaStart betaMax steps) betaMax = betaMax := by
  have hinc : 0 ≤ betaInc betaStart betaMax steps :=
    div_nonneg (by linarith) (le_of_lt hsteps)
  refine ⟨?_, ?_, ?_, ?_, ?_⟩
  · exact le_min (by linarith) hle
  · exact min_le_right _ _
  · exact le_min (by linarith) hhi
  · have h := min_le_left (beta + betaInc betaStart betaMax steps) betaMax
    unfold betaStep
    linarith
  · exact min_eq_right (by linarith)

theorem zip3With_get {α β γ δ : Type} (f : α → β → γ → δ) :
    ∀ (as : List α) (bs : List β) (cs : List γ) (i : ℕ)
      (ha : i < as.length) (hb : i < bs.length) (hc : i < cs.length)
      (h : i < (zip3With f as bs cs).length),
      (zip3With f as bs cs).get ⟨i, h⟩
        = f (as.get ⟨i, ha⟩) (bs.get ⟨i, hb⟩) (cs.get ⟨i, hc⟩) := by
  intro as
  induction as with
  | nil => intro bs cs i ha; cases ha
  | cons a as ih =>
      intro bs cs i ha hb hc h
      cases bs with
      | nil => cases hb
      | cons b bs =>
          cases cs with
          | nil => cases hc
          | cons c cs =>
              cases i with
              | zero => rfl
              | succ j =>
                  exact ih bs cs j (Nat.lt_of_succ_lt_succ ha)
                    (Nat.lt_of_succ_lt_succ hb) (Nat.lt_of_succ_lt_succ hc)
                    (Nat.lt_of_succ_lt_succ h)

theorem zipWith_get {α β γ : Type} (f : α → β → γ) :
    ∀ (as : List α) (bs : List β) (i : ℕ)
      (ha : i < as.length) (hb : i < bs.length)
      (h : i < (List.zipWith f as bs).length),
      (List.zipWith f as bs).get ⟨i, h⟩ = f (as.get ⟨i, ha⟩) (bs.get ⟨i, hb⟩) := by
  intro as
  induction as with
  | nil => intro bs i ha _ _; cases ha
  | cons a as ih =>
      intro bs i ha hb h
      cases bs with
      | nil => cases hb
      | cons b bs =>
          cases i with
          | zero => rfl
          | succ j =>
              exact ih bs j (Nat.lt_of_succ_lt_succ ha)
                (Nat.lt_of_succ_lt_succ hb) (Nat.lt_of_succ_lt_succ h)

/-- C5: every batch element's target value equals `reward` when `done` and
`reward + gamma * max_a Q_target(next_state, a)` otherwise, computed from the
target network's next-state row alone; and the targets are invariant under
any change to the online network's next-state outputs (`next_online_q_values`
is computed but unused). -/
theorem dqn_target_values_correct (gamma : ℚ) (rewards : List ℚ)
    (dones : List Bool) (nextTargetQ : List (List ℚ)) :
    (∀ (i : ℕ) (h1 : i < rewards.length) (h2 : i < dones.length)
       (h3 : i < nextTargetQ.length)
       (hi : i < (targetValues gamma rewards dones nextTargetQ).length),
       (targetValues gamma rewards dones nextTargetQ).get ⟨i, hi⟩
         = if dones.get ⟨i, h2⟩ then rewards.get ⟨i, h1⟩
           else rewards.get ⟨i, h1⟩ + gamma * reduceMax (nextTargetQ.get ⟨i, h3⟩)) ∧
    (∀ nextOnlineQ nextOnlineQ2 : List (List ℚ),
       dqnLossTargets gamma rewards dones nextTargetQ nextOnlineQ
         = dqnLossTargets gamma rewards dones nextTargetQ nextOnlineQ2) := by
  constructor
  · intro i h1 h2 h3 hi
    have hadj : i < (adjustedRewards gamma rewards nextTargetQ).length := by
      simp only [adjustedRewards, List.length_zipWith]
      exact lt_min h1 h3
    have h0 := zip3With_get (fun (d : Bool) (r a : ℚ) => if d then r else a)
      dones rewards (adjustedRewards gamma rewards nextTargetQ) i h2 h1 hadj hi
    have h4 := zipWith_get (fun (r : ℚ) (row : List ℚ) => r + gamma * reduceMax row)
      rewards nextTargetQ i h1 h3 hadj
    refine h0.trans ?_
    cases hdg : dones.get ⟨i, h2⟩ with
    | false =>
        simp only [hdg, Bool.false_eq_true, if_false]
        exact h4
    | true => simp [hdg]
  · intro _ _; rfl

/-- Witness for C5: a concrete two-element batch, one terminal and one
non-terminal transition, with `gamma = 1/2`. -/
theorem dqn_target_values_correct_witness :
    (targetValues (1/2) [10, 10] [true, false] [[1, 2], [3, 4]]).get
        ⟨1, by norm_num [targetValues, zip3With, adjustedRewards]⟩
      = if ([true, false].get ⟨1, by norm_num⟩) then ([10, 10] : List ℚ).get ⟨1, by norm_num⟩
        else ([10, 10] : List ℚ).get ⟨1, by norm_num⟩
          + (1/2) * reduceMax (([[1, 2], [3, 4]] : List (List ℚ)).get ⟨1, by norm_num⟩) :=
  (dqn_target_values_correct (1/2) [10, 10] [true, false] [[1, 2], [3, 4]]).1
    1 (by norm_num) (by norm_num) (by norm_num)
    (by norm_num [targetValues, zip3With, adjustedRewards])

theorem wmax_mem {l : List (WithBot ℚ)} (h : l ≠ []) : wmax l ∈ l := by
  cases l with
  | nil => exact absurd rfl h
  | cons x xs =>
      rcases foldMax_mem x xs with hm | hm
      · rw [wmax, hm]; exact List.mem_cons_self _ _
      · exact List.mem_cons_of_mem _ hm

theorem le_wmax_of_mem {y : WithBot ℚ} {l : List (WithBot ℚ)} (h : y ∈ l) :
    y ≤ wmax l := by
  cases l with
  | nil => cases h
  | cons x xs =>
      rcases List.mem_cons.mp h with hy | hy
      · rw [hy]; exact le_foldMax_seed x xs
      · exact le_foldMax_of_mem hy x

/-- C10: with a mask holding at least one `True`, `QPolicy._act` returns an
in-range action index whose mask entry is `True` (masked-out actions, set to
`np.NINF`, are never the argmax); with no mask the action is the argmax over
the whole unmasked row. -/
theorem qpolicy_act_respects_mask (qvals : List ℚ) (m : List Bool)
    (hlen : m.length = qvals.length)
    (hex : ∃ (i : ℕ) (hi : i < m.length), m.get ⟨i, hi⟩ = true) :
    (∃ (h : qpolicyAct qvals (some m) < m.length),
       m.get ⟨qpolicyAct qvals (some m), h⟩ = true) ∧
    qpolicyAct qvals none = npArgmax (qvals.map (fun (q : ℚ) => (q : WithBot ℚ))) := by
  refine ⟨?_, rfl⟩
  obtain ⟨i, hi, htrue⟩ := hex
  set masked : List (WithBot ℚ) :=
    List.zipWith (fun (b : Bool) (q : ℚ) => if b then (q : WithBot ℚ) else ⊥) m qvals with hmasked
  have hmlen : masked.length = m.length := by
    rw [hmasked, List.length_zipWith, hlen, min_self]
  have hiq : i < qvals.length := hlen ▸ hi
  have him : i < masked.length := hmlen ▸ hi
  have hgeti : masked.get ⟨i, him⟩ = (qvals.get ⟨i, hiq⟩ : WithBot ℚ) := by
    have hz := zipWith_get (fun (b : Bool) (q : ℚ) => if b then (q : WithBot ℚ) else ⊥)
      m qvals i hi hiq him
    rw [htrue] at hz
    exact hz.trans (by simp)
  have hne : masked ≠ [] := by
    intro hcon
    rw [hcon] at him
    exact absurd him (by simp)
  have hwmem : wmax masked ∈ masked := wmax_mem hne
  have hwbot : ⊥ < wmax masked := by
    have hle : (qvals.get ⟨i, hiq⟩ : WithBot ℚ) ≤ wmax masked := by
      rw [← hgeti]
      exact le_wmax_of_mem (List.get_mem masked i him)
    exact lt_of_lt_of_le (WithBot.bot_lt_coe _) hle
  have hidx : masked.indexOf (wmax masked) < masked.length :=
    List.indexOf_lt_length.mpr hwmem
  have hact : qpolicyAct qvals (some m) = masked.indexOf (wmax masked) := rfl
  have hj : qpolicyAct qvals (some m) < m.length := by
    rw [hact, ← hmlen]; exact hidx
  refine ⟨hj, ?_⟩
  have hjq : qpolicyAct qvals (some m) < qvals.length := hlen ▸ hj
  have hjm : qpolicyAct qvals (some m) < masked.length := hmlen ▸ hj
  have hgetj : masked.get ⟨qpolicyAct qvals (some m), hjm⟩ = wmax masked := by
    have hg := List.indexOf_get (a := wmax masked) (l := masked) hidx
    exact hg
  by_contra hfalse
  have hmf : m.get ⟨qpolicyAct qvals (some m), hj⟩ = false :=
    Bool.eq_false_iff.mpr hfalse
  have : masked.get ⟨qpolicyAct qvals (some m), hjm⟩ = ⊥ := by
    have hz := zipWith_get (fun (b : Bool) (q : ℚ) => if b then (q : WithBot ℚ) else ⊥)
      m qvals _ hj hjq hjm
    rw [hmf] at hz
    exact hz.trans (by simp)
  rw [hgetj] at this
  exact absurd this (ne_of_gt hwbot)

/-- Witness for C10: a three-action row where the best raw Q-value is masked
out; the selected action is index 2, the best allowed one. -/
theorem qpolicy_act_respects_mask_witness :
    (∃ (h : qpolicyAct [1, 5, 3] (some [true, false, true]) < 3),
       ([true, false, true] : List Bool).get
         ⟨qpolicyAct [1, 5, 3] (some [true, false, true]), h⟩ = true) ∧
    qpolicyAct [1, 5, 3] none
      = npArgmax (([1, 5, 3] : List ℚ).map (fun (q : ℚ) => (q : WithBot ℚ))) :=
  qpolicy_act_respects_mask [1, 5, 3] [true, false, true] rfl ⟨0, by norm_num, rfl⟩

/-- Counterexample for C9: with an infinite loss, `DQNAgent._train` still
applies the gradient update and increments its step counter — the run does
not abort. -/
theorem dqn_nonfinite_loss_not_aborted :
    (dqnTrainStep ⟨0, 0⟩ ⟨true, false⟩).updatesApplied = 1 ∧
    (dqnTrainStep ⟨0, 0⟩ ⟨true, false⟩).trainStep = 1 :=
  ⟨rfl, rfl⟩

/-- C9 (amended): the VPG training step aborts with an assertion failure
exactly when the loss is infinite or NaN, before applying the update; the
DQN training step performs no finiteness check and applies the update and
continues regardless of the loss. -/
theorem vpg_aborts_dqn_does_not (loss : LossVal) (applied : ℕ) (s : DQNTrainState) :
    (vpgTrainStep applied loss = Except.error "AssertionError"
       ↔ (loss.isInf || loss.isNan) = true) ∧
    (dqnTrainStep s loss).updatesApplied = s.updatesApplied + 1 ∧
    (dqnTrainStep s loss).trainStep = s.trainStep + 1 := by
  refine ⟨?_, rfl, rfl⟩
  cases hif : (loss.isInf || loss.isNan) <;> simp [vpgTrainStep, hif]

/-- Witness for C9 (amended): an infinite loss at concrete states — VPG
aborts, DQN applies the update. -/
theorem vpg_aborts_dqn_does_not_witness :
    (vpgTrainStep 0 ⟨true, false⟩ = Except.error "AssertionError"
       ↔ ((true : Bool) || false) = true) ∧
    (dqnTrainStep ⟨0, 0⟩ ⟨true, false⟩).updatesApplied = 0 + 1 ∧
    (dqnTrainStep ⟨0, 0⟩ ⟨true, false⟩).trainStep = 0 + 1 :=
  vpg_aborts_dqn_does_not ⟨true, false⟩ 0 ⟨0, 0⟩

theorem setAll_not_mem (pairs : List (ℕ × ℚ)) :
    ∀ (prios : ℕ → Option ℚ) (i : ℕ), i ∉ pairs.map Prod.fst →
      setAll prios pairs i = prios i := by
  induction pairs with
  | nil => intro prios i _; rfl
  | cons p rest ih =>
      intro prios i hnm
      have hi1 : i ≠ p.1 := fun hc => hnm (by simp [hc])
      have hrest : i ∉ rest.map Prod.fst := fun hc => hnm (List.mem_cons_of_mem _ hc)
      have : setAll prios (p :: rest) = setAll (sumTreeSetVal prios p.1 p.2) rest := rfl
      rw [this, ih _ i hrest, sumTreeSetVal, if_neg hi1]

theorem setAll_get (pairs : List (ℕ × ℚ)) :
    ∀ (prios : ℕ → Option ℚ), (pairs.map Prod.fst).Nodup →
      ∀ (k : ℕ) (hk : k < pairs.length),
        setAll prios pairs (pairs.get ⟨k, hk⟩).1 = some (pairs.get ⟨k, hk⟩).2 := by
  induction pairs with
  | nil => intro prios _ k hk; cases hk
  | cons p rest ih =>
      intro prios hnd k hk
      have hstep : setAll prios (p :: rest) = setAll (sumTreeSetVal prios p.1 p.2) rest := rfl
      rw [List.map_cons] at hnd
      obtain ⟨hnm, hnd2⟩ := List.nodup_cons.mp hnd
      cases k with
      | zero =>
          rw [hstep]
          show setAll (sumTreeSetVal prios p.1 p.2) rest p.1 = some p.2
          rw [setAll_not_mem rest _ p.1 hnm, sumTreeSetVal, if_pos rfl]
      | succ j =>
          rw [hstep]
          exact ih _ hnd2 j (Nat.lt_of_succ_lt_succ hk)

/-- Counterexample for C4: `update_samples` with error `-2` for slot `0`
stores priority `-2`, not `|-2| = 2` — no absolute value is taken. -/
theorem update_samples_no_abs_cex :
    update_samples (fun _ => some 1) [-2] [0]
      = Except.ok (setAll (fun _ => some 1) ([0].zip [-2])) ∧
    setAll (fun _ => some 1) ([0].zip [-2]) 0 = some (-2) ∧
    some (-2 : ℚ) ≠ some (abs (-2 : ℚ)) := by
  refine ⟨rfl, rfl, ?_⟩
  intro hc
  have : (-2 : ℚ) = abs (-2 : ℚ) := Option.some.inj hc
  norm_num at this

/-- C4 (amended): `update_samples` stores, for each listed slot, the error
value exactly as passed (the caller is expected to supply magnitudes; no
absolute value is applied inside), and a length mismatch between `errors`
and `indexes` fails the assertion immediately at the call site. -/
theorem update_samples_raw_and_assert (prios : ℕ → Option ℚ)
    (errors : List ℚ) (indexes : List ℕ) :
    (errors.length ≠ indexes.length →
       update_samples prios errors indexes = Except.error "AssertionError") ∧
    (errors.length = indexes.length →
       update_samples prios errors indexes
         = Except.ok (setAll prios (indexes.zip errors))) ∧
    (errors.length = indexes.length → indexes.Nodup →
       ∀ (k : ℕ) (hk : k < indexes.length) (hke : k < errors.length),
         setAll prios (indexes.zip errors) (indexes.get ⟨k, hk⟩)
           = some (errors.get ⟨k, hke⟩)) := by
  refine ⟨fun hne => by rw [update_samples, if_neg hne],
          fun heq => by rw [update_samples, if_pos heq],
          fun heq hnd k hk hke => ?_⟩
  have hmap : (indexes.zip errors).map Prod.fst = indexes :=
    List.map_fst_zip indexes errors (le_of_eq heq.symm)
  have hzlen : k < (indexes.zip errors).length := by
    rw [List.length_zip]; exact lt_min hk hke
  have hget : (indexes.zip errors).get ⟨k, hzlen⟩
      = (indexes.get ⟨k, hk⟩, errors.get ⟨k, hke⟩) :=
    zipWith_get Prod.mk indexes errors k hk hke hzlen
  have hndz : ((indexes.zip errors).map Prod.fst).Nodup := by rw [hmap]; exact hnd
  have := setAll_get (indexes.zip errors) prios hndz k hzlen
  rw [hget] at this
  exact this

/-- Witness for C4 (amended): two distinct slots updated with raw errors
`3` and `-4`; slot `2` ends with priority `-4`, and a mismatched call fails
the assertion. -/
theorem update_samples_raw_and_assert_witness :
    update_samples (fun _ => none) [3, -4] [1, 2]
      = Except.ok (setAll (fun _ => none) ([1, 2].zip [3, -4])) ∧
    setAll (fun _ => none) ([1, 2].zip [3, -4]) 2 = some (-4) ∧
    update_samples (fun _ => none) [3] [1, 2] = Except.error "AssertionError" := by
  have h := update_samples_raw_and_assert (fun _ => none) [3, -4] [1, 2]
  have h2 := update_samples_raw_and_assert (fun _ => none) [3] [1, 2]
  refine ⟨h.2.1 rfl, ?_, h2.1 (by norm_num)⟩
  have := h.2.2 rfl (by norm_num) 1 (by norm_num) (by norm_num)
  simpa using this

/-- C1: evaluating `commit_stmemory` at the spec's own test point
(`n_step_return = 3`, hence `self._n = 2`, rewards all `1`, `discount =
1/2`, no terminals, two staged fragments, batch size 1): instead of
committing a transition carrying the n-step return `1.75`, the aggregation
branch raises a KeyError — line 60 reads the key states from a dict built
on line 57 with the key state; nothing is committed. -/
theorem commit_stmemory_nstep_keyerror :
    commit_stmemory 2
      [mkStExperience [0] [0] [1] [0] [false],
       mkStExperience [0] [0] [1] [0] [false]]
      [0] [0] [1] [0] [false] (1/2)
      = Except.error "KeyError: states" := rfl

theorem add_mod_ne_self {p m size : ℕ} (hp : p < size) (hm1 : 0 < m)
    (hm2 : m < size) : (p + m) % size ≠ p := by
  intro hc
  rcases Nat.lt_or_ge (p + m) size with h | h
  · rw [Nat.mod_eq_of_lt h] at hc
    omega
  · have h2 : p + m - size < size := by omega
    have h3 : (p + m) % size = p + m - size := by
      rw [Nat.mod_eq_sub_mod h, Nat.mod_eq_of_lt h2]
    omega

theorem mod_cycle_hit {size p j : ℕ} (hp : p < size) (hj : j < size) :
    (p + (j + size - p) % size) % size = j := by
  calc (p + (j + size - p) % size) % size
      = ((j + size - p) % size + p) % size := by rw [Nat.add_comm]
    _ = (j + size - p + p) % size := Nat.mod_add_mod _ _ _
    _ = (j + size) % size := by rw [show j + size - p + p = j + size from by omega]
    _ = j % size := Nat.add_mod_right j size
    _ = j := Nat.mod_eq_of_lt hj

theorem stamp_ptr_le (s : PBState) (hptr : s.ptr < s.size)
    (hchain : ∀ k, k + 1 < s.size →
      s.stamp ((s.ptr + k) % s.size) ≤ s.stamp ((s.ptr + k + 1) % s.size)) :
    ∀ k, k < s.size → s.stamp s.ptr ≤ s.stamp ((s.ptr + k) % s.size) := by
  intro k
  induction k with
  | zero => intro _; rw [Nat.add_zero, Nat.mod_eq_of_lt hptr]
  | succ j ih => intro hk; exact le_trans (ih (by omega)) (hchain j hk)

/-- C6: a `commit_ltmemory` call preserves the ring-buffer invariant, keeps
the advanced cursor in `0 .. capacity-1` (advancing modulo capacity), keeps
at most `capacity` transitions live, writes the new transition at the old
cursor, resets that slot's priority entry to the (default) priority assigned
to the new transition, and — when the store is full — the overwritten slot
is the oldest one. -/
theorem commit_ltmemory_ring (s : PBState) (e : LtExp) (hinv : RingInv s) :
    RingInv (commit_ltmemory s e) ∧
    (commit_ltmemory s e).ptr = (s.ptr + 1) % s.size ∧
    (commit_ltmemory s e).ptr < s.size ∧
    liveCount (commit_ltmemory s e) ≤ s.size ∧
    (commit_ltmemory s e).ltmem s.ptr = some e ∧
    (commit_ltmemory s e).tree.prios s.ptr = some (stDefault s.tree) ∧
    (full s → isOldest s s.ptr) := by
  obtain ⟨hsz, hptr, hdom, hstamp, hchain⟩ := hinv
  have hptr2 : (s.ptr + 1) % s.size < s.size := Nat.mod_lt _ hsz
  refine ⟨⟨hsz, hptr2, ?_, ?_, ?_⟩, rfl, hptr2, ?_, ?_, ?_, ?_⟩
  · intro i hi
    simp only [commit_ltmemory] at hi
    by_cases hip : i = s.ptr
    · rw [hip]; exact hptr
    · rw [if_neg hip] at hi
      exact hdom i hi
  · intro i
    simp only [commit_ltmemory]
    by_cases hip : i = s.ptr
    · rw [if_pos hip]; omega
    · rw [if_neg hip]; exact le_trans (hstamp i) (Nat.le_succ _)
  · intro k hk1
    simp only [commit_ltmemory] at hk1 ⊢
    have hA : ((s.ptr + 1) % s.size + k) % s.size = (s.ptr + 1 + k) % s.size :=
      Nat.mod_add_mod _ _ _
    have hB : ((s.ptr + 1) % s.size + k + 1) % s.size = (s.ptr + 1 + k + 1) % s.size := by
      have h1 : (s.ptr + 1) % s.size + k + 1 = (s.ptr + 1) % s.size + (k + 1) := by omega
      rw [h1, Nat.mod_add_mod, ← Nat.add_assoc]
    rw [hA, hB]
    have hAne : (s.ptr + 1 + k) % s.size ≠ s.ptr := by
      rw [show s.ptr + 1 + k = s.ptr + (k + 1) from by omega]
      exact add_mod_ne_self hptr (by omega) (by omega)
    rw [if_neg hAne]
    by_cases hBful : k + 2 = s.size
    · have hBp : (s.ptr + 1 + k + 1) % s.size = s.ptr := by
        rw [show s.ptr + 1 + k + 1 = s.ptr + s.size from by omega]
        rw [Nat.add_mod_right, Nat.mod_eq_of_lt hptr]
      rw [hBp, if_pos rfl]
      exact hstamp _
    · have hBne : (s.ptr + 1 + k + 1) % s.size ≠ s.ptr := by
        rw [show s.ptr + 1 + k + 1 = s.ptr + (k + 2) from by omega]
        exact add_mod_ne_self hptr (by omega) (by omega)
      rw [if_neg hBne]
      have := hchain (k + 1) (by omega)
      rw [show s.ptr + (k + 1) = s.ptr + 1 + k from by omega] at this
      exact this
  · exact le_trans (List.length_filter_le _ _) (by simp [commit_ltmemory])
  · simp [commit_ltmemory]
  · simp [commit_ltmemory, sumTreeSetNew, sumTreeSetVal]
  · intro _ j hj
    obtain ⟨k, hk, hkj⟩ : ∃ k, k < s.size ∧ (s.ptr + k) % s.size = j :=
      ⟨(j + s.size - s.ptr) % s.size, Nat.mod_lt _ hsz, mod_cycle_hit hptr hj⟩
    rw [← hkj]
    exact stamp_ptr_le s hptr hchain k hk

/-- Witness for C6: a commit into an empty one-slot buffer satisfying the
invariant. -/
theorem commit_ltmemory_ring_witness :
    RingInv (commit_ltmemory pbWitnessState ⟨0, 0, 0, PyObj.num 0, false⟩) ∧
    (commit_ltmemory pbWitnessState ⟨0, 0, 0, PyObj.num 0, false⟩).ptr = (0 + 1) % 1 := by
  have h := commit_ltmemory_ring pbWitnessState ⟨0, 0, 0, PyObj.num 0, false⟩
    ⟨Nat.one_pos, Nat.one_pos, fun i hi => by simp [pbWitnessState] at hi,
     fun _ => Nat.le_refl 0, fun k hk => by simp [pbWitnessState] at hk⟩
  exact ⟨h.1, h.2.1⟩

theorem treeSelect_correct : ∀ (ps : List ℚ) (t : ℚ), (∀ p ∈ ps, 0 ≤ p) →
    0 ≤ t → t < ps.sum →
    treeSelect ps t < ps.length ∧
    (ps.take (treeSelect ps t)).sum ≤ t ∧
    t < (ps.take (treeSelect ps t + 1)).sum := by
  intro ps
  induction ps with
  | nil =>
      intro t _ ht0 htl
      simp only [List.sum_nil] at htl
      exact absurd htl (not_lt.mpr ht0)
  | cons p ps ih =>
      intro t hpos ht0 htl
      by_cases hlt : t < p
      · rw [treeSelect, if_pos hlt]
        refine ⟨Nat.succ_pos _, by simpa using ht0, ?_⟩
        simpa using hlt
      · rw [treeSelect, if_neg hlt]
        have hp : p ≤ t := not_lt.mp hlt
        have hrest : t - p < ps.sum := by
          rw [List.sum_cons] at htl
          linarith
        have hpos2 : ∀ q ∈ ps, 0 ≤ q := fun q hq => hpos q (List.mem_cons_of_mem _ hq)
        obtain ⟨hlen, hlo, hhi⟩ := ih (t - p) hpos2 (by linarith) hrest
        refine ⟨by simp only [List.length_cons]; omega, ?_, ?_⟩
        · rw [show 1 + treeSelect ps (t - p) = treeSelect ps (t - p) + 1 from by omega]
          rw [List.take_succ_cons, List.sum_cons]
          linarith
        · rw [show 1 + treeSelect ps (t - p) + 1 = (treeSelect ps (t - p) + 1) + 1 from by omega]
          rw [List.take_succ_cons, List.sum_cons]
          linarith

/-- Counterexample for C3: priorities `[3, 1]` (total mass 4), batch size 2.
The draw `1` in segment `[0, 1/2)` and the draw `2` in segment `[1/2, 1)`
are both legal, yet both descend to slot `0`, whose mass spans the two
segments — the same slot appears twice in one batch. -/
theorem stratified_sample_duplicate_cex :
    validDraws ([3, 1] : List ℚ).sum 2 [1, 2] ∧
    stratifiedIndexes [3, 1] [1, 2] = [0, 0] ∧
    ¬ (stratifiedIndexes [3, 1] [1, 2]).Nodup := by
  refine ⟨⟨rfl, ?_⟩, ?_, ?_⟩
  · intro i h
    have h2 : i < 2 := by simpa using h
    interval_cases i <;> norm_num
  · norm_num [stratifiedIndexes, treeSelect]
  · norm_num [stratifiedIndexes, treeSelect]

/-- C3 (amended): `sample(batch_size)` partitions `[0,1]` into `batch_size`
equal-width contiguous segments (`np.linspace`), draws exactly one slot per
segment via the tree descent on a value from that segment's range, and each
returned slot is the one whose cumulative priority interval contains its
segment's draw; the same slot may however be returned for several segments
when its priority mass spans them. -/
theorem stratified_sample_segments (ps : List ℚ) (draws : List ℚ) (n : ℕ)
    (hn : 0 < n) (hvalid : validDraws ps.sum n draws)
    (hpos : ∀ p ∈ ps, 0 ≤ p) (htot : 0 < ps.sum) :
    ((linspace01 n).length = n + 1 ∧
     ∀ (i : ℕ) (h1 : i + 1 < (linspace01 n).length) (h0 : i < (linspace01 n).length),
       (linspace01 n).get ⟨i + 1, h1⟩ - (linspace01 n).get ⟨i, h0⟩ = 1 / n) ∧
    (stratifiedIndexes ps draws).length = n ∧
    ∀ (i : ℕ) (h : i < draws.length) (hs : i < (stratifiedIndexes ps draws).length),
      (stratifiedIndexes ps draws).get ⟨i, hs⟩ < ps.length ∧
      (ps.take ((stratifiedIndexes ps draws).get ⟨i, hs⟩)).sum ≤ draws.get ⟨i, h⟩ ∧
      draws.get ⟨i, h⟩ < (ps.take ((stratifiedIndexes ps draws).get ⟨i, hs⟩ + 1)).sum := by
  obtain ⟨hdlen, hdrange⟩ := hvalid
  have hncast : (0 : ℚ) < (n : ℚ) := by exact_mod_cast hn
  refine ⟨⟨by rw [linspace01, List.length_map, List.length_range],
          ?_⟩, by simp [stratifiedIndexes, hdlen], ?_⟩
  · intro i h1 h0
    have e1 : (linspace01 n).get ⟨i + 1, h1⟩ = ((i + 1 : ℕ) : ℚ) / n := by
      simp only [linspace01, List.get_eq_getElem, List.getElem_map, List.getElem_range]
    have e0 : (linspace01 n).get ⟨i, h0⟩ = ((i : ℕ) : ℚ) / n := by
      simp only [linspace01, List.get_eq_getElem, List.getElem_map, List.getElem_range]
    rw [e1, e0, div_sub_div_same]
    push_cast
    ring_nf
  · intro i h hs
    obtain ⟨hlo, hhi⟩ := hdrange i h
    have hget : (stratifiedIndexes ps draws).get ⟨i, hs⟩
        = treeSelect ps (draws.get ⟨i, h⟩) := by
      simp [stratifiedIndexes]
    have ht0 : 0 ≤ draws.get ⟨i, h⟩ := by
      have : (0 : ℚ) ≤ (i : ℚ) / n * ps.sum := by positivity
      linarith
    have hin : i + 1 ≤ n := by
      rw [hdlen] at h
      omega
    have htlt : draws.get ⟨i, h⟩ < ps.sum := by
      have hle1 : ((i : ℚ) + 1) / n ≤ 1 := by
        rw [div_le_one hncast]
        exact_mod_cast hin
      have : ((i : ℚ) + 1) / n * ps.sum ≤ 1 * ps.sum :=
        mul_le_mul_of_nonneg_right hle1 (le_of_lt htot)
      linarith
    rw [hget]
    exact treeSelect_correct ps (draws.get ⟨i, h⟩) hpos ht0 htlt

/-- Witness for C3 (amended): the segment structure at priorities `[3, 1]`
with draws `[1, 2]` and batch size 2. -/
theorem stratified_sample_segments_witness :
    ((linspace01 2).length = 2 + 1 ∧
     ∀ (i : ℕ) (h1 : i + 1 < (linspace01 2).length) (h0 : i < (linspace01 2).length),
       (linspace01 2).get ⟨i + 1, h1⟩ - (linspace01 2).get ⟨i, h0⟩ = 1 / 2) ∧
    (stratifiedIndexes [3, 1] [1, 2]).length = 2 ∧
    ∀ (i : ℕ) (h : i < ([1, 2] : List ℚ).length)
      (hs : i < (stratifiedIndexes [3, 1] [1, 2]).length),
      (stratifiedIndexes [3, 1] [1, 2]).get ⟨i, hs⟩ < ([3, 1] : List ℚ).length ∧
      (([3, 1] : List ℚ).take ((stratifiedIndexes [3, 1] [1, 2]).get ⟨i, hs⟩)).sum
        ≤ ([1, 2] : List ℚ).get ⟨i, h⟩ ∧
      ([1, 2] : List ℚ).get ⟨i, h⟩
        < (([3, 1] : List ℚ).take ((stratifiedIndexes [3, 1] [1, 2]).get ⟨i, hs⟩ + 1)).sum :=
  stratified_sample_segments [3, 1] [1, 2] 2 (by norm_num)
    ⟨rfl, by
      intro i h
      have h2 : i < 2 := by simpa using h
      interval_cases i <;> norm_num⟩
    (by intro p hp; simp only [List.mem_cons, List.not_mem_nil, or_false] at hp
        rcases hp with rfl | rfl <;> norm_num)
    (by norm_num)

theorem foldMax_map_mul (c : ℝ) (hc : 0 ≤ c) :
    ∀ (xs : List ℝ) (x : ℝ),
      foldMax (c * x) (xs.map (fun y => c * y)) = c * foldMax x xs := by
  intro xs
  induction xs with
  | nil => intro x; rfl
  | cons y ys ih =>
      intro x
      rw [List.map_cons, foldMax_cons, foldMax_cons, ← mul_max_of_nonneg _ _ hc, ih]

theorem npMax_map_mul (c : ℝ) (hc : 0 ≤ c) (l : List ℝ) (hne : l ≠ []) :
    npMax (l.map (fun y => c * y)) = c * npMax l := by
  cases l with
  | nil => exact absurd rfl hne
  | cons x xs =>
      rw [List.map_cons]
      exact foldMax_map_mul c hc xs x

theorem npMax_pos (l : List ℝ) (hne : l ≠ []) (hpos : ∀ x ∈ l, 0 < x) :
    0 < npMax l := by
  cases l with
  | nil => exact absurd rfl hne
  | cons x xs =>
      exact lt_of_lt_of_le (hpos x (List.mem_cons_self _ _)) (le_foldMax_seed x xs)

theorem normalizeMax_map_mul (c : ℝ) (hc : 0 < c) (l : List ℝ) (hne : l ≠ []) :
    normalizeMax (l.map (fun y => c * y)) = normalizeMax l := by
  rw [normalizeMax, normalizeMax, npMax_map_mul c (le_of_lt hc) l hne, List.map_map]
  refine List.map_congr_left ?_
  intro x _
  show c * x / (c * npMax l) = x / npMax l
  rw [mul_div_mul_left _ _ (ne_of_gt hc)]

theorem npMax_normalizeMax (l : List ℝ) (hne : l ≠ []) (hpos : ∀ x ∈ l, 0 < x) :
    npMax (normalizeMax l) = 1 := by
  have hM : 0 < npMax l := npMax_pos l hne hpos
  have h1 : normalizeMax l = l.map (fun y => (npMax l)⁻¹ * y) := by
    rw [normalizeMax]
    exact List.map_congr_left (fun x _ => by rw [div_eq_inv_mul])
  rw [h1, npMax_map_mul _ (le_of_lt (inv_pos.mpr hM)) l hne, inv_mul_cancel₀ (ne_of_gt hM)]

theorem foldMax_one_map (ys : List ℝ) :
    foldMax 1 (ys.map (fun (_ : ℝ) => (1 : ℝ))) = 1 := by
  induction ys with
  | nil => rfl
  | cons y ys ih => rw [List.map_cons, foldMax_cons, max_self]; exact ih

theorem npMax_const_one (l : List ℝ) (hne : l ≠ []) :
    npMax (l.map (fun (_ : ℝ) => (1 : ℝ))) = 1 := by
  cases l with
  | nil => exact absurd rfl hne
  | cons x xs =>
      rw [List.map_cons]
      exact foldMax_one_map xs

theorem prioritiesPowOf_eq (rawPs : List ℝ) (eps α : ℝ) :
    prioritiesPowOf rawPs eps α = rawPs.map (fun (p : ℝ) => (p + eps) ^ α) := by
  rw [prioritiesPowOf, prioritiesOf, List.map_map]
  exact List.map_congr_left (fun p _ => rfl)

theorem probsOf_eq (rawPs : List ℝ) (eps α : ℝ) :
    probsOf rawPs eps α = rawPs.map
      (fun (p : ℝ) => (p + eps) ^ α / (rawPs.map (fun (p : ℝ) => (p + eps) ^ α)).sum) := by
  rw [probsOf, prioritiesPowOf_eq, List.map_map]
  exact List.map_congr_left (fun p _ => rfl)

theorem weight_transform (S N q β : ℝ) (hS : 0 < S) (hq : 0 < q) (hN : 0 < N) :
    (1 / (N * (q / S))) ^ β = S ^ β * ((N * q) ^ β)⁻¹ := by
  have h1 : 1 / (N * (q / S)) = S / (N * q) := by
    field_simp
  rw [h1, Real.div_rpow hS.le (by positivity), div_eq_mul_inv]

theorem weight_spec_transform (T N q β : ℝ) (hT : 0 < T) (hq : 0 < q) (hN : 0 < N) :
    (N * (q / T)) ^ (-β) = T ^ β * ((N * q) ^ β)⁻¹ := by
  have h2 : N * (q / T) = N * q / T := by ring
  rw [h2, Real.rpow_neg (by positivity), Real.div_rpow (by positivity) hT.le,
    inv_div, div_eq_mul_inv]

/-- C2: the weights the batch actually receives coincide with the spec's
formula — `w_i = (N * P_i)^(-beta)` with `P_i = (p_i + eps)^alpha / Σ_j
(p_j + eps)^alpha` summed over all stored slots, then divided by the batch
maximum — because the normalization cancels the denominator sum; and the
returned batch's maximum weight equals exactly 1. -/
theorem sample_weights_correct (rawPs allPs : List ℝ) (N : ℕ) (eps α β : ℝ)
    (hne : rawPs ≠ []) (hnn : ∀ p ∈ rawPs, 0 ≤ p) (heps : 0 < eps) (hN : 0 < N)
    (hT : 0 < (allPs.map (fun (p : ℝ) => (p + eps) ^ α)).sum) :
    isWeightsCode rawPs N eps α β = isWeightsSpec rawPs allPs N eps α β ∧
    npMax (isWeightsCode rawPs N eps α β) = 1 := by
  have hNR : (0 : ℝ) < (N : ℝ) := by exact_mod_cast hN
  have hq : ∀ p ∈ rawPs, (0 : ℝ) < (p + eps) ^ α := fun p hp =>
    Real.rpow_pos_of_pos (by linarith [hnn p hp]) α
  by_cases hb : β = 0
  · subst hb
    have hones : isWeightsCode rawPs N eps α 0 = rawPs.map (fun (_ : ℝ) => (1 : ℝ)) := by
      rw [isWeightsCode, if_neg (by simp), prioritiesOf, List.map_map]
      exact List.map_congr_left (fun p _ => rfl)
    have hspec : isWeightsSpec rawPs allPs N eps α 0 = rawPs.map (fun (_ : ℝ) => (1 : ℝ)) := by
      simp only [isWeightsSpec, neg_zero, Real.rpow_zero]
      rw [normalizeMax, npMax_const_one rawPs hne, List.map_map]
      exact List.map_congr_left (fun x _ => by simp)
    refine ⟨hones.trans hspec.symm, ?_⟩
    rw [hones, npMax_const_one rawPs hne]
  · have hmapne : ∀ (g : ℝ → ℝ), rawPs.map g ≠ [] := by
      intro g hcon
      exact hne (List.map_eq_nil_iff.mp hcon)
    have hS : 0 < (rawPs.map (fun (p : ℝ) => (p + eps) ^ α)).sum := by
      refine List.sum_pos _ ?_ (hmapne _)
      intro x hx
      obtain ⟨p, hp, rfl⟩ := List.mem_map.mp hx
      exact hq p hp
    have hfpos : ∀ x ∈ rawPs.map (fun (p : ℝ) => (((N : ℝ) * (p + eps) ^ α) ^ β)⁻¹), 0 < x := by
      intro x hx
      obtain ⟨p, hp, rfl⟩ := List.mem_map.mp hx
      have := hq p hp
      exact inv_pos.mpr (Real.rpow_pos_of_pos (by positivity) β)
    have hcode : isWeightsCode rawPs N eps α β
        = normalizeMax ((rawPs.map (fun (p : ℝ) => (((N : ℝ) * (p + eps) ^ α) ^ β)⁻¹)).map
            (fun y => ((rawPs.map (fun (p : ℝ) => (p + eps) ^ α)).sum) ^ β * y)) := by
      rw [isWeightsCode, if_pos hb, probsOf_eq, List.map_map, List.map_map]
      congr 1
      refine List.map_congr_left ?_
      intro p hp
      show (1 / ((N : ℝ) * ((p + eps) ^ α / (rawPs.map (fun (p : ℝ) => (p + eps) ^ α)).sum))) ^ β
        = ((rawPs.map (fun (p : ℝ) => (p + eps) ^ α)).sum) ^ β
            * (((N : ℝ) * (p + eps) ^ α) ^ β)⁻¹
      exact weight_transform _ _ _ β hS (hq p hp) hNR
    have hspec : isWeightsSpec rawPs allPs N eps α β
        = normalizeMax ((rawPs.map (fun (p : ℝ) => (((N : ℝ) * (p + eps) ^ α) ^ β)⁻¹)).map
            (fun y => ((allPs.map (fun (p : ℝ) => (p + eps) ^ α)).sum) ^ β * y)) := by
      simp only [isWeightsSpec]
      rw [List.map_map]
      congr 1
      refine List.map_congr_left ?_
      intro p hp
      show ((N : ℝ) * ((p + eps) ^ α / (allPs.map (fun (p : ℝ) => (p + eps) ^ α)).sum)) ^ (-β)
        = ((allPs.map (fun (p : ℝ) => (p + eps) ^ α)).sum) ^ β
            * (((N : ℝ) * (p + eps) ^ α) ^ β)⁻¹
      exact weight_spec_transform _ _ _ β hT (hq p hp) hNR
    refine ⟨?_, ?_⟩
    · rw [hcode, hspec,
        normalizeMax_map_mul _ (Real.rpow_pos_of_pos hS β) _ (hmapne _),
        normalizeMax_map_mul _ (Real.rpow_pos_of_pos hT β) _ (hmapne _)]
    · rw [hcode, normalizeMax_map_mul _ (Real.rpow_pos_of_pos hS β) _ (hmapne _),
        npMax_normalizeMax _ (hmapne _) hfpos]

/-- Witness for C2: a singleton batch with priority `1`, `N = 1`,
`eps = 1`, `alpha = 1`, `beta = 1`. -/
theorem sample_weights_correct_witness :
    isWeightsCode [1] 1 1 1 1 = isWeightsSpec [1] [1] 1 1 1 1 ∧
    npMax (isWeightsCode [1] 1 1 1 1) = 1 :=
  sample_weights_correct [1] [1] 1 1 1 1 (by simp)
    (by intro p hp; simp only [List.mem_singleton] at hp; rw [hp]; norm_num)
    (by norm_num) (by norm_num)
    (by simp only [List.map_cons, List.map_nil, List.sum_cons, List.sum_nil]
        rw [show ((1 : ℝ) + 1) = 2 from by norm_num, Real.rpow_one]
        norm_num)

/-- Witness for C7: the annealing invariant at
`beta_start = 0`, `beta_end = 1`, `steps = 4`, current `beta = 0`. -/
theorem beta_anneal_invariant_witness :
    (0 : ℚ) ≤ betaStep 0 (betaInc 0 1 4) 1 ∧
    betaStep 0 (betaInc 0 1 4) 1 ≤ 1 ∧
    (0 : ℚ) ≤ betaStep 0 (betaInc 0 1 4) 1 ∧
    betaStep 0 (betaInc 0 1 4) 1 - 0 ≤ betaInc 0 1 4 ∧
    betaStep 1 (betaInc 0 1 4) 1 = 1 :=
  beta_anneal_invariant 0 1 4 0 (by norm_num) (by norm_num) le_rfl (by norm_num)

end DRL
